import Mathlib

/-
  Verification of `lca_algebraic` (src/lca_algebraic/base_utils.py and
  src/lca_algebraic/__init__.py).

  Shallow embedding of the pure parts of the code:
  * `SymDict` — a dict with arithmetic overloads used to aggregate per-axis
    LCA contributions.  Python dicts are modelled as association lists over
    `Option K` (the Python key `None` is `Option.none`); dict lookup is
    first-match lookup.  The set-union of key views in `_apply_op` is
    modelled with `List.dedup` of the concatenated key lists (iteration
    order of a Python set is arbitrary, so all claims about the result
    of `_apply_op` are stated through key membership and lookup).
  * `Max`, `Min`, `interpolate` — algebraic formulas, embedded over `ℚ`
    for exact arithmetic.
  * `TabbedDataframe.to_excel` — the spreadsheet writer is external
    (pandas/xlsxwriter); the calls the method performs are modelled as an
    event trace of written sheets, each sheet recording its name, the
    metadata header rows and the start row of the dataframe.
  * `initProject` — modelled as `Except`, the raised exception being the
    error case.
  * A small store of allocated dicts models heap allocation, to state the
    frame property that `SymDict` operations never mutate their operands.
-/

namespace LcaAlg

/-- First-match association-list lookup: Python `dict[key]` / `dict.get(key)`. -/
def lookupD [DecidableEq α] : List (α × β) → α → Option β
  | [], _ => none
  | (k', v) :: rest, k => if k = k' then some v else lookupD rest k

/-- Python `dict.get(key, default)`. -/
def getD [DecidableEq α] (d : List (α × β)) (k : α) (v0 : β) : β :=
  (lookupD d k).getD v0

/-- The keys of a dict, in insertion order. -/
def keysD (d : List (α × β)) : List α := d.map Prod.fst

theorem lookupD_map_keys [DecidableEq α] (ks : List α) (f : α → β) (k : α) :
    lookupD (ks.map fun x => (x, f x)) k = if k ∈ ks then some (f k) else none := by
  induction ks with
  | nil => simp [lookupD]
  | cons a t ih =>
    by_cases h : k = a
    · subst h; simp [lookupD]
    · simp [lookupD, h, ih]

theorem lookupD_map_val [DecidableEq α] (d : List (α × β)) (f : β → γ) (k : α) :
    lookupD (d.map fun kv => (kv.1, f kv.2)) k = (lookupD d k).map f := by
  induction d with
  | nil => simp [lookupD]
  | cons kv t ih =>
    by_cases h : k = kv.1
    · simp [lookupD, h]
    · simp [lookupD, h, ih]

theorem keysD_cons (kv : α × β) (t : List (α × β)) :
    keysD (kv :: t) = kv.1 :: keysD t := rfl

theorem mem_keysD_iff_lookupD [DecidableEq α] (d : List (α × β)) (k : α) :
    k ∈ keysD d ↔ lookupD d k ≠ none := by
  induction d with
  | nil => simp [keysD, lookupD]
  | cons kv t ih =>
    by_cases h : k = kv.1
    · simp [keysD_cons, lookupD, h]
    · simp [keysD_cons, lookupD, h, ih]

theorem lookupD_eq_some_getD [DecidableEq α] (d : List (α × β)) (k : α) (v0 : β)
    (h : k ∈ keysD d) : lookupD d k = some (getD d k v0) := by
  rcases ho : lookupD d k with _ | v
  · exact absurd ho ((mem_keysD_iff_lookupD d k).mp h)
  · simp [getD, ho]

/-! ### Max / Min / interpolate (src/lca_algebraic/base_utils.py, lines 58-72) -/

/-- Python `Max(a, b)`, defined as an algebraic formula with `abs`. -/
def Max (a b : ℚ) : ℚ := (a + b + |a - b|) / 2

/-- Python `Min(a, b)`, defined as an algebraic formula with `abs`. -/
def Min (a b : ℚ) : ℚ := (a + b - |b - a|) / 2

/-- Linear interpolation between two points, clamped to `[x1, x2]`. -/
def interpolate (x x1 x2 y1 y2 : ℚ) : ℚ :=
  let xc := Min (Max x x1) x2
  y1 + (y2 - y1) * (xc - x1) / (x2 - x1)

theorem Max_eq_max (a b : ℚ) : Max a b = max a b := by
  rcases le_total a b with h | h
  · rw [Max, abs_of_nonpos (by linarith), max_eq_right h]; ring
  · rw [Max, abs_of_nonneg (by linarith), max_eq_left h]; ring

theorem Min_eq_min (a b : ℚ) : Min a b = min a b := by
  rcases le_total a b with h | h
  · rw [Min, abs_of_nonneg (by linarith), min_eq_left h]; ring
  · rw [Min, abs_of_nonpos (by linarith), min_eq_right h]; ring

/-! ### SymDict (src/lca_algebraic/base_utils.py, lines 144-201)

A Python dict whose keys may be `None` is modelled as an association list
over `Option K`; the Python key `None` is `Option.none`. -/

/-- The underlying dict of a `SymDict`. -/
abbrev Dic (K V : Type) := List (Option K × V)

/-- Python `SymDict.__init__`: the class holds its dict in `self.dict`. -/
structure SymDict (K V : Type) where
  dict : Dic K V

namespace SymDict

/-- Model of `all_keys = set(other.dict.keys()) | set(self.dict.keys())` of `_apply_op`:
the union of the two key views (one realisation of the arbitrary set order). -/
def unionKeys [DecidableEq K] (self other : Dic K V) : List (Option K) :=
  (keysD other ++ keysD self).dedup

/-- Core of `SymDict._apply_op` once `other` is known to be a `SymDict`:
`SymDict({key: fop(self.dict.get(key, null_val), other.dict.get(key, null_val))
for key in all_keys})`. -/
def apply_op_dic [DecidableEq K] (self other : Dic K V) (fop : V → V → V) (null_val : V) :
    Dic K V :=
  (unionKeys self other).map fun key => (key, fop (getD self key null_val) (getD other key null_val))

/-- Python `SymDict._apply_op` on a `SymDict` operand. -/
def apply_op [DecidableEq K] (s : SymDict K V) (other : SymDict K V)
    (fop : V → V → V) (null_val : V) : SymDict K V :=
  ⟨apply_op_dic s.dict other.dict fop null_val⟩

/-- Python `SymDict._apply_op` on a non-`SymDict` operand: the operand is first
wrapped as a dict with the single key `None` (`dic[None] = other`). -/
def apply_op_scalar [DecidableEq K] (s : SymDict K V) (other : V)
    (fop : V → V → V) (null_val : V) : SymDict K V :=
  ⟨apply_op_dic s.dict [(none, other)] fop null_val⟩

/-- Python `SymDict._apply_self`: map `fop` over the values, keeping the keys. -/
def apply_self (s : SymDict K V) (fop : V → V) : SymDict K V :=
  ⟨s.dict.map fun kv => (kv.1, fop kv.2)⟩

/-- Python `SymDict.__add__` with a `SymDict` operand: `self._apply_op(other, lambda a, b: a + b, 0)`. -/
def addSym [DecidableEq K] [Add V] [Zero V] (s other : SymDict K V) : SymDict K V :=
  apply_op s other (fun a b => a + b) 0

/-- Python `SymDict.__add__` with a non-`SymDict` operand. -/
def addScalar [DecidableEq K] [Add V] [Zero V] (s : SymDict K V) (other : V) : SymDict K V :=
  apply_op_scalar s other (fun a b => a + b) 0

/-- Python `SymDict.__radd__` with a non-`SymDict` operand (the only case Python
dispatches here): `self._apply_op(other, lambda a, b: b + a, 0)`. -/
def raddScalar [DecidableEq K] [Add V] [Zero V] (s : SymDict K V) (other : V) : SymDict K V :=
  apply_op_scalar s other (fun a b => b + a) 0

/-- Python `SymDict.__mul__`: `self._apply_self(lambda a: a * other)`. -/
def mulScalar [Mul V] (s : SymDict K V) (other : V) : SymDict K V :=
  apply_self s (fun a => a * other)

/-- Python `SymDict.__rmul__`: `self._apply_self(lambda a: other * a)`. -/
def rmulScalar [Mul V] (s : SymDict K V) (other : V) : SymDict K V :=
  apply_self s (fun a => other * a)

/-- Python `SymDict.__truediv__`: `self._apply_self(lambda a: a / other)`. -/
def divScalar [Div V] (s : SymDict K V) (other : V) : SymDict K V :=
  apply_self s (fun a => a / other)

/-- Python `SymDict._defer(funcname, args, kwargs)` for a fixed `funcname` and fixed
arguments: a value `val` with the attribute (`hasAttr val = true`) is replaced
by `getattr(val, funcname)(*args, **kwargs)` (the function `attr`), a value
without it is kept unchanged. -/
def defer (s : SymDict K V) (hasAttr : V → Bool) (attr : V → V) : SymDict K V :=
  ⟨s.dict.map fun kv => (kv.1, if hasAttr kv.2 then attr kv.2 else kv.2)⟩

/-- Python `SymDict.xreplace(*args, **kwargs) = self._defer("xreplace", args, kwargs)`:
`hasXr v` models `hasattr(v, "xreplace")` and `xr v` models
`v.xreplace(*args, **kwargs)` for the fixed substitution arguments. -/
def xreplace (s : SymDict K V) (hasXr : V → Bool) (xr : V → V) : SymDict K V :=
  defer s hasXr xr

/-- The keys of a `SymDict`. -/
def keys (s : SymDict K V) : List (Option K) := keysD s.dict

end SymDict

theorem keysD_map_keys (ks : List α) (f : α → β) :
    keysD (ks.map fun x => (x, f x)) = ks := by
  induction ks with
  | nil => rfl
  | cons a t ih => rw [List.map_cons, keysD_cons, ih]

theorem mem_unionKeys [DecidableEq K] (self other : Dic K V) (k : Option K) :
    k ∈ SymDict.unionKeys self other ↔ (k ∈ keysD self ∨ k ∈ keysD other) := by
  simp [SymDict.unionKeys, List.mem_dedup, List.mem_append, or_comm]

theorem keysD_apply_op_dic [DecidableEq K] (self other : Dic K V)
    (fop : V → V → V) (v0 : V) :
    keysD (SymDict.apply_op_dic self other fop v0) = SymDict.unionKeys self other :=
  keysD_map_keys _ _

theorem lookupD_apply_op_dic [DecidableEq K] (self other : Dic K V)
    (fop : V → V → V) (v0 : V) (k : Option K) :
    lookupD (SymDict.apply_op_dic self other fop v0) k =
      if k ∈ keysD self ∨ k ∈ keysD other
      then some (fop (getD self k v0) (getD other k v0)) else none := by
  rw [SymDict.apply_op_dic, lookupD_map_keys]
  by_cases h : k ∈ keysD self ∨ k ∈ keysD other
  · rw [if_pos ((mem_unionKeys self other k).mpr h), if_pos h]
  · rw [if_neg (fun hk => h ((mem_unionKeys self other k).mp hk)), if_neg h]

theorem keysD_wrap (c : V) : keysD ([(none, c)] : Dic K V) = [none] := rfl

theorem getD_wrap_none [DecidableEq K] (c v0 : V) :
    getD ([(none, c)] : Dic K V) none v0 = c := by
  simp [getD, lookupD]

theorem getD_wrap_of_ne [DecidableEq K] (c v0 : V) (k : Option K) (h : k ≠ none) :
    getD ([(none, c)] : Dic K V) k v0 = v0 := by
  simp [getD, lookupD, h]

/-- C1: `s + o` (and `o + s`) unions the key sets and adds values pointwise,
a missing key contributing `0`; a non-`SymDict` operand is wrapped as
`{None: o}`, so a plain scalar is added only under the `None` key and the
other entries only gain `+ 0`. -/
theorem symdict_add_spec [DecidableEq K] [Add V] [Zero V]
    (s o : SymDict K V) (c : V) :
    ((∀ k, k ∈ (s.addSym o).keys ↔ (k ∈ s.keys ∨ k ∈ o.keys)) ∧
     (∀ k, k ∈ s.keys ∨ k ∈ o.keys →
        lookupD (s.addSym o).dict k = some (getD s.dict k 0 + getD o.dict k 0))) ∧
    ((∀ k, k ∈ (s.addScalar c).keys ↔ (k ∈ s.keys ∨ k = none)) ∧
     lookupD (s.addScalar c).dict none = some (getD s.dict none 0 + c) ∧
     (∀ k, k ∈ s.keys → k ≠ none →
        lookupD (s.addScalar c).dict k = some (getD s.dict k 0 + 0))) ∧
    ((∀ k, k ∈ (s.raddScalar c).keys ↔ (k ∈ s.keys ∨ k = none)) ∧
     lookupD (s.raddScalar c).dict none = some (c + getD s.dict none 0) ∧
     (∀ k, k ∈ s.keys → k ≠ none →
        lookupD (s.raddScalar c).dict k = some (0 + getD s.dict k 0))) := by
  refine ⟨⟨fun k => ?_, fun k hk => ?_⟩, ⟨fun k => ?_, ?_, fun k hk hne => ?_⟩,
          ⟨fun k => ?_, ?_, fun k hk hne => ?_⟩⟩
  · rw [SymDict.keys, SymDict.addSym, SymDict.apply_op, keysD_apply_op_dic]
    exact mem_unionKeys _ _ k
  · simp only [SymDict.keys] at hk
    rw [SymDict.addSym, SymDict.apply_op, lookupD_apply_op_dic, if_pos hk]
  · rw [SymDict.keys, SymDict.addScalar, SymDict.apply_op_scalar, keysD_apply_op_dic]
    rw [mem_unionKeys, keysD_wrap, List.mem_singleton]
    exact Iff.rfl
  · rw [SymDict.addScalar, SymDict.apply_op_scalar, lookupD_apply_op_dic,
      if_pos (Or.inr (by simp [keysD_wrap])), getD_wrap_none]
  · simp only [SymDict.keys] at hk
    rw [SymDict.addScalar, SymDict.apply_op_scalar, lookupD_apply_op_dic,
      if_pos (Or.inl hk), getD_wrap_of_ne _ _ _ hne]
  · rw [SymDict.keys, SymDict.raddScalar, SymDict.apply_op_scalar, keysD_apply_op_dic]
    rw [mem_unionKeys, keysD_wrap, List.mem_singleton]
    exact Iff.rfl
  · rw [SymDict.raddScalar, SymDict.apply_op_scalar, lookupD_apply_op_dic,
      if_pos (Or.inr (by simp [keysD_wrap])), getD_wrap_none]
  · simp only [SymDict.keys] at hk
    rw [SymDict.raddScalar, SymDict.apply_op_scalar, lookupD_apply_op_dic,
      if_pos (Or.inl hk), getD_wrap_of_ne _ _ _ hne]

/-- Concrete instance of C1: adding the scalar `7` to
`{"a": 2, None: 5}` touches only the `None` entry. -/
theorem symdict_add_spec_witness :
    (some "a") ∈ (SymDict.mk [(some "a", 2), (none, 5)] : SymDict String ℤ).keys ∧
    (some "a") ≠ (none : Option String) ∧
    lookupD (SymDict.addScalar (⟨[(some "a", 2), (none, 5)]⟩ : SymDict String ℤ) 7).dict
        (some "a") = some (2 + 0) ∧
    lookupD (SymDict.addScalar (⟨[(some "a", 2), (none, 5)]⟩ : SymDict String ℤ) 7).dict
        none = some (5 + 7) := by
  have h := symdict_add_spec (K := String) (V := ℤ)
    ⟨[(some "a", 2), (none, 5)]⟩ ⟨[(some "b", 3)]⟩ 7
  exact ⟨by decide, by decide,
    h.2.1.2.2 (some "a") (by decide) (by decide), h.2.1.2.1⟩

theorem keysD_map_snd (d : List (α × β)) (f : β → γ) :
    keysD (d.map fun kv => (kv.1, f kv.2)) = keysD d := by
  induction d with
  | nil => rfl
  | cons kv t ih => rw [List.map_cons, keysD_cons, keysD_cons, ih]

theorem keys_defer (s : SymDict K V) (hasXr : V → Bool) (xr : V → V) :
    (s.defer hasXr xr).keys = s.keys :=
  keysD_map_snd s.dict fun v => if hasXr v then xr v else v

theorem lookupD_defer [DecidableEq K] (s : SymDict K V) (hasXr : V → Bool)
    (xr : V → V) (k : Option K) :
    lookupD (s.defer hasXr xr).dict k =
      (lookupD s.dict k).map fun v => if hasXr v then xr v else v :=
  lookupD_map_val s.dict (fun v => if hasXr v then xr v else v) k

/-- C2: `s.xreplace(sigma)` keeps exactly the keys of `s`; a value with an
`xreplace` attribute is replaced by the result of calling it, a value
without one is kept unchanged. -/
theorem symdict_xreplace_spec [DecidableEq K] (s : SymDict K V)
    (hasXr : V → Bool) (xr : V → V) :
    (s.xreplace hasXr xr).keys = s.keys ∧
    (∀ k v, lookupD s.dict k = some v →
       lookupD (s.xreplace hasXr xr).dict k = some (if hasXr v then xr v else v)) ∧
    (∀ k, lookupD s.dict k = none → lookupD (s.xreplace hasXr xr).dict k = none) := by
  refine ⟨keys_defer s hasXr xr, fun k v hv => ?_, fun k hn => ?_⟩
  · rw [SymDict.xreplace, lookupD_defer, hv]; rfl
  · rw [SymDict.xreplace, lookupD_defer, hn]; rfl

/-- Concrete instance of C2: `xreplace` rewrites the value that supports it
and keeps the one that does not. -/
theorem symdict_xreplace_spec_witness :
    lookupD (SymDict.mk [(some "a", 4), (none, 5)] : SymDict String ℤ).dict
        (some "a") = some 4 ∧
    lookupD ((SymDict.mk [(some "a", 4), (none, 5)] : SymDict String ℤ).xreplace
        (fun v => v % 2 == 0) (fun v => v + 10)).dict (some "a") =
      some (if (4 : ℤ) % 2 == 0 then (4 : ℤ) + 10 else 4) := by
  have h := symdict_xreplace_spec (K := String) (V := ℤ)
    ⟨[(some "a", 4), (none, 5)]⟩ (fun v => v % 2 == 0) (fun v => v + 10)
  exact ⟨by decide, h.2.1 (some "a") 4 (by decide)⟩

/-- C6: `s * c`, `c * s` and `s / c` keep exactly the key set of `s` (no
`None` key is introduced, no key is dropped) and transform each value by
right multiplication, left multiplication, and division respectively. -/
theorem symdict_scalar_ops_spec [DecidableEq K] [Mul V] [Div V]
    (s : SymDict K V) (c : V) :
    ((s.mulScalar c).keys = s.keys ∧
     ∀ k, lookupD (s.mulScalar c).dict k = (lookupD s.dict k).map fun v => v * c) ∧
    ((s.rmulScalar c).keys = s.keys ∧
     ∀ k, lookupD (s.rmulScalar c).dict k = (lookupD s.dict k).map fun v => c * v) ∧
    ((s.divScalar c).keys = s.keys ∧
     ∀ k, lookupD (s.divScalar c).dict k = (lookupD s.dict k).map fun v => v / c) :=
  ⟨⟨keysD_map_snd s.dict fun v => v * c, fun k => lookupD_map_val s.dict (fun v => v * c) k⟩,
   ⟨keysD_map_snd s.dict fun v => c * v, fun k => lookupD_map_val s.dict (fun v => c * v) k⟩,
   ⟨keysD_map_snd s.dict fun v => v / c, fun k => lookupD_map_val s.dict (fun v => v / c) k⟩⟩

/-- Concrete instance of C6 on `{"a": 6, None: 10}` with the scalar `2`. -/
theorem symdict_scalar_ops_spec_witness :
    ((SymDict.mk [(some "a", 6), (none, 10)] : SymDict String ℚ).mulScalar 2).keys =
      (SymDict.mk [(some "a", 6), (none, 10)] : SymDict String ℚ).keys ∧
    lookupD ((SymDict.mk [(some "a", 6), (none, 10)] : SymDict String ℚ).divScalar 2).dict
        none = (lookupD (SymDict.mk [(some "a", 6), (none, 10)] :
          SymDict String ℚ).dict none).map (fun v => v / 2) := by
  have h := symdict_scalar_ops_spec (K := String) (V := ℚ)
    ⟨[(some "a", 6), (none, 10)]⟩ 2
  exact ⟨h.1.1, h.2.2.2 none⟩

theorem getD_nil [DecidableEq α] (k : α) (v0 : β) :
    getD ([] : List (α × β)) k v0 = v0 := rfl

theorem lookupD_eq_none [DecidableEq α] (d : List (α × β)) (k : α)
    (h : k ∉ keysD d) : lookupD d k = none := by
  by_contra hne
  exact h ((mem_keysD_iff_lookupD d k).mpr hne)

/-- C5: `SymDict` addition is commutative when value addition is, and the
empty `SymDict` is an identity when adding `0` leaves values unchanged
(equal key sets and equal value at every key). -/
theorem symdict_add_comm_id [DecidableEq K] [Add V] [Zero V] (s1 s2 s : SymDict K V)
    (hcomm : ∀ a b : V, a + b = b + a)
    (hzr : ∀ v : V, v + 0 = v) (hzl : ∀ v : V, 0 + v = v) :
    (∀ k, lookupD (s1.addSym s2).dict k = lookupD (s2.addSym s1).dict k) ∧
    ((∀ k, k ∈ (s.addSym ⟨[]⟩).keys ↔ k ∈ s.keys) ∧
     (∀ k, lookupD (s.addSym ⟨[]⟩).dict k = lookupD s.dict k)) ∧
    ((∀ k, k ∈ ((⟨[]⟩ : SymDict K V).addSym s).keys ↔ k ∈ s.keys) ∧
     (∀ k, lookupD ((⟨[]⟩ : SymDict K V).addSym s).dict k = lookupD s.dict k)) := by
  refine ⟨fun k => ?_, ⟨fun k => ?_, fun k => ?_⟩, ⟨fun k => ?_, fun k => ?_⟩⟩
  · rw [SymDict.addSym, SymDict.addSym, SymDict.apply_op, SymDict.apply_op,
      lookupD_apply_op_dic, lookupD_apply_op_dic]
    by_cases hk : k ∈ keysD s1.dict ∨ k ∈ keysD s2.dict
    · rw [if_pos hk, if_pos (Or.symm hk), hcomm]
    · rw [if_neg hk, if_neg fun h => hk (Or.symm h)]
  · rw [SymDict.keys, SymDict.addSym, SymDict.apply_op, keysD_apply_op_dic,
      mem_unionKeys]
    simp [keysD, SymDict.keys]
  · rw [SymDict.addSym, SymDict.apply_op, lookupD_apply_op_dic]
    by_cases hk : k ∈ keysD s.dict
    · rw [if_pos (Or.inl hk), getD_nil, hzr, lookupD_eq_some_getD s.dict k 0 hk]
    · rw [if_neg (fun h => h.elim hk (List.not_mem_nil k)),
        lookupD_eq_none s.dict k hk]
  · rw [SymDict.keys, SymDict.addSym, SymDict.apply_op, keysD_apply_op_dic,
      mem_unionKeys]
    simp [keysD, SymDict.keys]
  · rw [SymDict.addSym, SymDict.apply_op, lookupD_apply_op_dic]
    by_cases hk : k ∈ keysD s.dict
    · rw [if_pos (Or.inr hk), getD_nil, hzl, lookupD_eq_some_getD s.dict k 0 hk]
    · rw [if_neg (fun h => h.elim (List.not_mem_nil k) hk),
        lookupD_eq_none s.dict k hk]

/-- Concrete instance of C5 over `ℤ` values. -/
theorem symdict_add_comm_id_witness :
    lookupD ((SymDict.mk [(some "a", 1), (none, 2)] : SymDict String ℤ).addSym
        ⟨[(some "b", 3)]⟩).dict (some "a") =
      lookupD ((SymDict.mk [(some "b", 3)] : SymDict String ℤ).addSym
        ⟨[(some "a", 1), (none, 2)]⟩).dict (some "a") ∧
    lookupD ((SymDict.mk [(some "a", 1), (none, 2)] : SymDict String ℤ).addSym
        ⟨[]⟩).dict none =
      lookupD (SymDict.mk [(some "a", 1), (none, 2)] : SymDict String ℤ).dict none := by
  have h := symdict_add_comm_id (K := String) (V := ℤ)
    ⟨[(some "a", 1), (none, 2)]⟩ ⟨[(some "b", 3)]⟩ ⟨[(some "a", 1), (none, 2)]⟩
    (fun a b => add_comm a b) (fun v => add_zero v) (fun v => zero_add v)
  exact ⟨h.1 (some "a"), h.2.1.2 none⟩

theorem keysD_defer (s : SymDict K V) (hasXr : V → Bool) (xr : V → V) :
    keysD (s.defer hasXr xr).dict = keysD s.dict :=
  keysD_map_snd s.dict fun v => if hasXr v then xr v else v

theorem keys_addSym [DecidableEq K] [Add V] [Zero V] (s o : SymDict K V) :
    (s.addSym o).keys = SymDict.unionKeys s.dict o.dict :=
  keysD_apply_op_dic s.dict o.dict (fun a b => a + b) 0

theorem lookupD_addSym [DecidableEq K] [Add V] [Zero V] (s o : SymDict K V)
    (k : Option K) :
    lookupD (s.addSym o).dict k =
      if k ∈ keysD s.dict ∨ k ∈ keysD o.dict
      then some (getD s.dict k 0 + getD o.dict k 0) else none :=
  lookupD_apply_op_dic s.dict o.dict (fun a b => a + b) 0 k

theorem getD_defer_total [DecidableEq K] [Zero V] (s : SymDict K V)
    (hasXr : V → Bool) (xr : V → V)
    (hall : ∀ v, hasXr v = true) (hzero : xr (0 : V) = 0) (k : Option K) :
    getD (s.defer hasXr xr).dict k 0 = xr (getD s.dict k 0) := by
  rcases hv : lookupD s.dict k with _ | v
  · simp only [getD, lookupD_defer, hv, Option.map_none', Option.getD_none]
    exact hzero.symm
  · simp only [getD, lookupD_defer, hv, Option.map_some', Option.getD_some, hall v,
      if_true]

/-- C3: when every value supports `xreplace`, the substitution distributes
over value addition and maps `0` to `0`, `xreplace` commutes with `SymDict`
addition: `(s1 + s2).xreplace(sigma) = s1.xreplace(sigma) + s2.xreplace(sigma)`
(same key set, equal value at every key). -/
theorem symdict_xreplace_add_commute [DecidableEq K] [Add V] [Zero V]
    (s1 s2 : SymDict K V) (hasXr : V → Bool) (xr : V → V)
    (hall : ∀ v, hasXr v = true)
    (hdist : ∀ a b : V, xr (a + b) = xr a + xr b)
    (hzero : xr (0 : V) = 0) :
    (∀ k, k ∈ ((s1.addSym s2).xreplace hasXr xr).keys ↔
       k ∈ ((s1.xreplace hasXr xr).addSym (s2.xreplace hasXr xr)).keys) ∧
    (∀ k, lookupD ((s1.addSym s2).xreplace hasXr xr).dict k =
       lookupD ((s1.xreplace hasXr xr).addSym (s2.xreplace hasXr xr)).dict k) := by
  constructor
  · intro k
    simp only [SymDict.xreplace]
    rw [keys_defer, keys_addSym, keys_addSym, mem_unionKeys, mem_unionKeys,
      keysD_defer, keysD_defer]
  · intro k
    simp only [SymDict.xreplace]
    rw [lookupD_defer, lookupD_addSym, lookupD_addSym, keysD_defer, keysD_defer,
      getD_defer_total s1 hasXr xr hall hzero k,
      getD_defer_total s2 hasXr xr hall hzero k]
    by_cases hk : k ∈ keysD s1.dict ∨ k ∈ keysD s2.dict
    · rw [if_pos hk, if_pos hk]
      simp only [Option.map_some', hall, if_true, hdist]
    · rw [if_neg hk, if_neg hk]
      rfl

/-- Concrete instance of C3 with the substitution `v.xreplace = 2 * v`. -/
theorem symdict_xreplace_add_commute_witness :
    lookupD (((SymDict.mk [(some "a", 1), (none, 2)] : SymDict String ℤ).addSym
        ⟨[(some "b", 3)]⟩).xreplace (fun _ => true) (fun v => 2 * v)).dict (some "b") =
      lookupD (((SymDict.mk [(some "a", 1), (none, 2)] : SymDict String ℤ).xreplace
        (fun _ => true) (fun v => 2 * v)).addSym
        (SymDict.xreplace ⟨[(some "b", 3)]⟩ (fun _ => true) (fun v => 2 * v))).dict
        (some "b") := by
  have h := symdict_xreplace_add_commute (K := String) (V := ℤ)
    ⟨[(some "a", 1), (none, 2)]⟩ ⟨[(some "b", 3)]⟩ (fun _ => true) (fun v => 2 * v)
    (fun _ => rfl) (fun a b => by ring) (by ring)
  exact h.2 (some "b")

/-- C8: over exact rational arithmetic the algebraic `Max`/`Min` formulas
compute the usual maximum and minimum, and for `x1 < x2` the clamped
`interpolate` returns `y1` below `x1`, `y2` above `x2`, and the linear
interpolation in between. -/
theorem max_min_interpolate_spec (a b x x1 x2 y1 y2 : ℚ) (hlt : x1 < x2) :
    Max a b = max a b ∧ Min a b = min a b ∧
    (x ≤ x1 → interpolate x x1 x2 y1 y2 = y1) ∧
    (x2 ≤ x → interpolate x x1 x2 y1 y2 = y2) ∧
    (x1 ≤ x → x ≤ x2 →
      interpolate x x1 x2 y1 y2 = y1 + (y2 - y1) * (x - x1) / (x2 - x1)) := by
  refine ⟨Max_eq_max a b, Min_eq_min a b, fun h => ?_, fun h => ?_, fun h1 h2 => ?_⟩
  · simp only [interpolate, Max_eq_max, Min_eq_min]
    rw [max_eq_right h, min_eq_left hlt.le, sub_self, mul_zero, zero_div, add_zero]
  · simp only [interpolate, Max_eq_max, Min_eq_min]
    rw [max_eq_left (le_trans hlt.le h), min_eq_right h]
    have h0 : x2 - x1 ≠ 0 := sub_ne_zero.mpr (ne_of_gt hlt)
    field_simp
  · simp only [interpolate, Max_eq_max, Min_eq_min]
    rw [max_eq_left h1, min_eq_left h2]

/-- Concrete instance of C8: on `[1, 3]`, `interpolate` at `x = 0` is clamped
to the left bound value. -/
theorem max_min_interpolate_spec_witness :
    (1 : ℚ) < 3 ∧ (0 : ℚ) ≤ 1 ∧ interpolate 0 1 3 5 9 = 5 := by
  have h := max_min_interpolate_spec 0 0 0 1 3 5 9 (by norm_num)
  exact ⟨by norm_num, by norm_num, h.2.2.1 (by norm_num)⟩

/-! ### TabbedDataframe (src/lca_algebraic/base_utils.py, lines 204-236)

Dataframes are abstract payloads of a type `D`; the spreadsheet writer
(pandas/xlsxwriter) is external, so the calls `to_excel` performs are
modelled as a trace: one `openWriter` event for entering the
`pd.ExcelWriter` context and one `sheetWritten` event per
`df.to_excel(writer, ...)` call, each sheet recording its name, the
metadata header rows written on it by `worksheet.write_string` (row `i`
holds the `i`-th metadata pair) and the `startrow` passed for the
dataframe. -/

/-- Python `TabbedDataframe.__init__`: a dict of named dataframes plus metadata.
Both Python dicts iterate in insertion order, hence lists of pairs. -/
structure TabbedDataframe (D : Type) where
  metadata : List (String × String)
  dataframes : List (String × D)

/-- One sheet as written by `TabbedDataframe.to_excel`. -/
structure Sheet (D : Type) where
  name : String
  metaRows : List (String × String)
  startRow : Nat
  df : D
deriving DecidableEq

/-- The loop `for itab, (name, df) in enumerate(self.dataframes.items())` of
`to_excel`: the sheet at `itab = 0` carries the metadata header rows and its
dataframe starts at row `len(metadata) + 1`; every later sheet is plain. -/
def renderAux (meta : List (String × String)) :
    Nat → List (String × D) → List (Sheet D)
  | _, [] => []
  | itab, nd :: rest =>
    (if itab = 0 then Sheet.mk nd.1 meta (meta.length + 1) nd.2
     else Sheet.mk nd.1 [] 0 nd.2) :: renderAux meta (itab + 1) rest

/-- All sheets written by `to_excel`, in order. -/
def TabbedDataframe.renderSheets (t : TabbedDataframe D) : List (Sheet D) :=
  renderAux t.metadata 0 t.dataframes

/-- An observable call `to_excel` makes to the external spreadsheet layer. -/
inductive XEvent (D : Type) where
  | openWriter (filename : String)
  | sheetWritten (sheet : Sheet D)
deriving DecidableEq

/-- Python `str.endswith(suffix)`: the string's character list ends with the
suffix's character list. -/
def endswith (s sfx : String) : Bool :=
  decide (sfx.data.length ≤ s.data.length) &&
  decide (s.data.drop (s.data.length - sfx.data.length) = sfx.data)

/-- Python `TabbedDataframe.to_excel`: the `assert filename.endswith(".xlsx")` comes
first; only when it passes is the writer opened and are the sheets written.
The boolean is `true` when the call completes, `false` when the assertion
raises `AssertionError` (in which case no event has happened). -/
def TabbedDataframe.to_excel (t : TabbedDataframe D) (filename : String) :
    List (XEvent D) × Bool :=
  if endswith filename ".xlsx" then
    (XEvent.openWriter filename :: t.renderSheets.map XEvent.sheetWritten, true)
  else ([], false)

theorem renderAux_length (meta : List (String × String)) (itab : Nat)
    (dfs : List (String × D)) : (renderAux meta itab dfs).length = dfs.length := by
  induction dfs generalizing itab with
  | nil => rfl
  | cons nd rest ih => simp [renderAux, ih]

theorem renderAux_pos (meta : List (String × String)) (itab : Nat)
    (dfs : List (String × D)) :
    renderAux meta (itab + 1) dfs = dfs.map fun nd => Sheet.mk nd.1 [] 0 nd.2 := by
  induction dfs generalizing itab with
  | nil => rfl
  | cons nd rest ih => simp [renderAux, ih]

theorem renderSheets_eq (t : TabbedDataframe D) :
    t.renderSheets =
      match t.dataframes with
      | [] => []
      | nd :: rest =>
        Sheet.mk nd.1 t.metadata (t.metadata.length + 1) nd.2 ::
          rest.map fun nd => Sheet.mk nd.1 [] 0 nd.2 := by
  rcases t with ⟨meta, dfs⟩
  cases dfs with
  | nil => rfl
  | cons nd rest =>
    show renderAux meta 0 (nd :: rest) = _
    rw [renderAux, if_pos rfl, renderAux_pos]

/-- C7: when the filename ends in `.xlsx`, `to_excel` opens the writer and
writes exactly one sheet per dataframe in insertion order, each named after
the dataframe's key; the metadata key/value pairs appear as header rows only
on the first sheet, whose dataframe starts below them at row
`len(metadata) + 1`, while every other sheet has no header rows and starts
at row `0`. -/
theorem tabbed_to_excel_sheets {D : Type} (t : TabbedDataframe D) (fn : String)
    (h : endswith fn ".xlsx" = true) :
    (t.to_excel fn).2 = true ∧
    (t.to_excel fn).1 =
      XEvent.openWriter fn :: t.renderSheets.map XEvent.sheetWritten ∧
    t.renderSheets.map Sheet.name = t.dataframes.map Prod.fst ∧
    t.renderSheets.map Sheet.df = t.dataframes.map Prod.snd ∧
    (∀ nd rest, t.dataframes = nd :: rest →
      t.renderSheets.map Sheet.metaRows =
        t.metadata :: rest.map (fun _ => []) ∧
      t.renderSheets.map Sheet.startRow =
        (t.metadata.length + 1) :: rest.map (fun _ => 0)) := by
  refine ⟨by simp [TabbedDataframe.to_excel, h], by simp [TabbedDataframe.to_excel, h],
    ?_, ?_, fun nd rest hdfs => ?_⟩
  · rw [renderSheets_eq]
    cases hdfs : t.dataframes with
    | nil => rfl
    | cons nd rest => simp [List.map_map, Function.comp]
  · rw [renderSheets_eq]
    cases hdfs : t.dataframes with
    | nil => rfl
    | cons nd rest => simp [List.map_map, Function.comp]
  · rw [renderSheets_eq, hdfs]
    constructor <;> simp [List.map_map, Function.comp_def, List.map_const']

/-- Concrete instance of C7: two dataframes, one metadata pair. -/
theorem tabbed_to_excel_sheets_witness :
    endswith "out.xlsx" ".xlsx" = true ∧
    (TabbedDataframe.renderSheets
        ⟨[("author", "me")], [("s1", (10 : ℤ)), ("s2", 20)]⟩).map Sheet.name =
      ["s1", "s2"] ∧
    (TabbedDataframe.renderSheets
        ⟨[("author", "me")], [("s1", (10 : ℤ)), ("s2", 20)]⟩).map Sheet.metaRows =
      [[("author", "me")], []] := by
  have h := tabbed_to_excel_sheets (D := ℤ)
    ⟨[("author", "me")], [("s1", 10), ("s2", 20)]⟩ "out.xlsx" (by decide)
  refine ⟨by decide, ?_, ?_⟩
  · rw [h.2.2.1]; rfl
  · rw [(h.2.2.2.2 ("s1", 10) [("s2", 20)] rfl).1]; rfl

/-- C10: `to_excel` raises `AssertionError` on a filename not ending in
`.xlsx`, before opening or writing anything (empty event trace); with a
`.xlsx` filename the assertion passes and writing proceeds, starting by
opening the writer. -/
theorem tabbed_to_excel_assert {D : Type} (t : TabbedDataframe D) (fn : String) :
    (endswith fn ".xlsx" = false → t.to_excel fn = ([], false)) ∧
    (endswith fn ".xlsx" = true →
      (t.to_excel fn).2 = true ∧
      (t.to_excel fn).1.head? = some (XEvent.openWriter fn)) := by
  constructor
  · intro h; simp [TabbedDataframe.to_excel, h]
  · intro h; simp [TabbedDataframe.to_excel, h]

/-- Concrete instance of C10: `out.csv` is rejected with nothing written,
`out.xlsx` is accepted. -/
theorem tabbed_to_excel_assert_witness :
    endswith "out.csv" ".xlsx" = false ∧
    TabbedDataframe.to_excel (D := ℤ) ⟨[], [("s1", 4)]⟩ "out.csv" = ([], false) ∧
    (TabbedDataframe.to_excel (D := ℤ) ⟨[], [("s1", 4)]⟩ "out.xlsx").2 = true := by
  have h1 := tabbed_to_excel_assert (D := ℤ) ⟨[], [("s1", 4)]⟩ "out.csv"
  have h2 := tabbed_to_excel_assert (D := ℤ) ⟨[], [("s1", 4)]⟩ "out.xlsx"
  exact ⟨by decide, h1.1 (by decide), (h2.2 (by decide)).1⟩

/-! ### initProject (src/lca_algebraic/__init__.py, lines 33-37)

The body is a single `raise DeprecationWarning(...)`; a raised exception is
the `Except.error` case. -/

/-- Python `initProject(project_name)`: unconditionally raises `DeprecationWarning`
with the message below, whatever the project name is. -/
def initProject (project_name : String) : Except String Unit :=
  Except.error ("Deprecated : use bw2io.import_ecoinvent_release() instead, " ++
    "which takes care of installing the proper biosphere")

/-- Counterexample to C4 as stated: for the perfectly valid project name
`"my_project"`, `initProject` does not complete without raising — it raises
`DeprecationWarning`. -/
theorem initProject_not_ok_on_valid_name :
    initProject "my_project" ≠ Except.ok () ∧
    initProject "my_project" =
      Except.error ("Deprecated : use bw2io.import_ecoinvent_release() instead, " ++
        "which takes care of installing the proper biosphere") := by
  refine ⟨fun h => ?_, rfl⟩
  rw [initProject] at h
  exact Except.noConfusion h

/-- C4 amended: `initProject` is not a pass-through into the external LCA
framework; it unconditionally raises a `DeprecationWarning` pointing to
`bw2io.import_ecoinvent_release`, for every project name. -/
theorem initProject_always_raises (project_name : String) :
    initProject project_name =
      Except.error ("Deprecated : use bw2io.import_ecoinvent_release() instead, " ++
        "which takes care of installing the proper biosphere") := rfl

/-- Concrete instance of the amended C4. -/
theorem initProject_always_raises_witness :
    initProject "ecoinvent" =
      Except.error ("Deprecated : use bw2io.import_ecoinvent_release() instead, " ++
        "which takes care of installing the proper biosphere") :=
  initProject_always_raises "ecoinvent"

/-! ### Frame property of the SymDict operations (C9)

Python objects live on a heap; `self.dict` is a reference to a dict object.
The heap is modelled as a list of allocated dict objects, a `SymDict` being
an index into it.  Every arithmetic operation of the class reads the
operands' dicts and builds its result with a dict comprehension (a fresh
allocation); none of them writes into an existing dict. -/

/-- The heap of allocated dict objects. -/
abbrev Store (K V : Type) := List (Dic K V)

/-- Dereference a dict object. -/
def Store.read (st : Store K V) (r : Nat) : Option (Dic K V) := st.get? r

/-- Allocate a fresh dict object (what a dict comprehension does),
returning the new heap and the reference to the fresh object. -/
def Store.alloc (st : Store K V) (d : Dic K V) : Store K V × Nat :=
  (st ++ [d], st.length)

/-- The `SymDict` operations of C9, applied to a receiver reference:
`s + x` / `x + s` for a `SymDict` operand `x` (a second reference),
`s + c` / `c + s` for a scalar, `s * c`, `c * s`, `s / c`, and
`s.xreplace(sigma)`. -/
inductive SymOp (K V : Type) where
  | addSym (r2 : Nat)
  | addScal (c : V)
  | raddScal (c : V)
  | mulScal (c : V)
  | rmulScal (c : V)
  | divScal (c : V)
  | xrep (hasXr : V → Bool) (xr : V → V)

/-- Run one `SymDict` operation on the heap: read the operand dicts, build
the result dict exactly as the corresponding Python method does, and
allocate it as a fresh object. -/
def runOp [DecidableEq K] [Add V] [Zero V] [Mul V] [Div V]
    (st : Store K V) (r : Nat) (op : SymOp K V) : Option (Store K V × Nat) :=
  match st.read r with
  | none => none
  | some d =>
    match op with
    | .addSym r2 =>
      match st.read r2 with
      | none => none
      | some d2 => some (st.alloc (SymDict.apply_op_dic d d2 (fun a b => a + b) 0))
    | .addScal c =>
      some (st.alloc (SymDict.apply_op_dic d [(none, c)] (fun a b => a + b) 0))
    | .raddScal c =>
      some (st.alloc (SymDict.apply_op_dic d [(none, c)] (fun a b => b + a) 0))
    | .mulScal c => some (st.alloc (d.map fun kv => (kv.1, kv.2 * c)))
    | .rmulScal c => some (st.alloc (d.map fun kv => (kv.1, c * kv.2)))
    | .divScal c => some (st.alloc (d.map fun kv => (kv.1, kv.2 / c)))
    | .xrep hasXr xr =>
      some (st.alloc (d.map fun kv => (kv.1, if hasXr kv.2 then xr kv.2 else kv.2)))

theorem alloc_frame (st : Store K V) (d : Dic K V) :
    (∀ i, i < st.length → (st.alloc d).1.read i = st.read i) ∧
    st.read (st.alloc d).2 = none ∧ ((st.alloc d).1.read (st.alloc d).2).isSome = true := by
  refine ⟨fun i hi => ?_, ?_, ?_⟩
  · simp [Store.alloc, Store.read, List.getElem?_append_left hi]
  · simp [Store.alloc, Store.read, List.get?_eq_none]
  · simp [Store.alloc, Store.read, List.getElem?_concat_length]

/-- C9: no `SymDict` operation mutates its operands: each of `s + x`,
`x + s`, `s + c`, `c + s`, `s * c`, `c * s`, `s / c` and `s.xreplace(sigma)`
allocates and returns a fresh `SymDict`; every dict object already on the
heap — in particular the dicts held by the operands — still holds exactly
the same entries afterwards. -/
theorem symdict_ops_no_mutation [DecidableEq K] [Add V] [Zero V] [Mul V] [Div V]
    (st st' : Store K V) (r r' : Nat) (op : SymOp K V)
    (h : runOp st r op = some (st', r')) :
    (∀ i, i < st.length → st'.read i = st.read i) ∧
    st.read r' = none ∧ (st'.read r').isSome = true := by
  cases hread : st.read r with
  | none =>
    simp only [runOp, hread] at h
    exact Option.noConfusion h
  | some d =>
    cases op with
    | addSym r2 =>
      cases hr2 : st.read r2 with
      | none =>
        simp only [runOp, hread, hr2] at h
        exact Option.noConfusion h
      | some d2 =>
        simp only [runOp, hread, hr2, Option.some.injEq] at h
        rw [Store.alloc] at h
        injection h with h1 h2
        subst h1; subst h2
        exact alloc_frame st _
    | addScal c =>
      simp only [runOp, hread, Option.some.injEq] at h
      rw [Store.alloc] at h
      injection h with h1 h2
      subst h1; subst h2
      exact alloc_frame st _
    | raddScal c =>
      simp only [runOp, hread, Option.some.injEq] at h
      rw [Store.alloc] at h
      injection h with h1 h2
      subst h1; subst h2
      exact alloc_frame st _
    | mulScal c =>
      simp only [runOp, hread, Option.some.injEq] at h
      rw [Store.alloc] at h
      injection h with h1 h2
      subst h1; subst h2
      exact alloc_frame st _
    | rmulScal c =>
      simp only [runOp, hread, Option.some.injEq] at h
      rw [Store.alloc] at h
      injection h with h1 h2
      subst h1; subst h2
      exact alloc_frame st _
    | divScal c =>
      simp only [runOp, hread, Option.some.injEq] at h
      rw [Store.alloc] at h
      injection h with h1 h2
      subst h1; subst h2
      exact alloc_frame st _
    | xrep hasXr xr =>
      simp only [runOp, hread, Option.some.injEq] at h
      rw [Store.alloc] at h
      injection h with h1 h2
      subst h1; subst h2
      exact alloc_frame st _

/-- Concrete instance of C9: multiplying the `SymDict` at heap slot `0` by `3`
allocates slot `1` and leaves slot `0` untouched. -/
theorem symdict_ops_no_mutation_witness :
    runOp (K := String) (V := ℤ) [[(none, 2)]] 0 (SymOp.mulScal 3) =
      some ([[(none, 2)], [(none, 6)]], 1) ∧
    Store.read (K := String) (V := ℤ) [[(none, 2)]] 1 = none ∧
    (Store.read (K := String) (V := ℤ) [[(none, 2)], [(none, 6)]] 1).isSome = true ∧
    Store.read (K := String) (V := ℤ) [[(none, 2)], [(none, 6)]] 0 =
      Store.read (K := String) (V := ℤ) [[(none, 2)]] 0 := by
  have h := symdict_ops_no_mutation (K := String) (V := ℤ)
    [[(none, 2)]] [[(none, 2)], [(none, 6)]] 0 1 (SymOp.mulScal 3) (by decide)
  exact ⟨by decide, h.2.1, h.2.2, h.1 0 (by decide)⟩

end LcaAlg
